import Mathlib

/-!
Verification of the bytecode block-ordering core of the pytype repository
(file src/pytype/blocks/blocks.py), as a shallow embedding.

Instructions are decoded records; identity is the sequence index, so the
fields target / next hold instruction indices (the Python code holds object
references, which correspond one-to-one to indices under the well-formedness
predicate Wf below).  Mutation of instruction records (block_target, the
incoming/outgoing sets of blocks) is modelled by explicit side tables and
state passing, following the design note of the spec (section 9).
-/

/-- Opcode categories distinguished by the resolver in blocks.py
(isinstance checks against opcodes.POP_BLOCK, opcodes.RAISE_VARARGS,
opcodes.BREAK_LOOP, opcodes.SETUP_FINALLY, opcodes.SETUP_LOOP). -/
inductive OpCategory where
  | POP_BLOCK
  | RAISE_VARARGS
  | BREAK_LOOP
  | SETUP_FINALLY
  | SETUP_LOOP
  | OTHER
deriving DecidableEq, Inhabited

/-- A decoded instruction record (the input contract of blocks.py:
opcodes.Opcode).  index is the position in the sequence; target is the
explicit jump destination; next is the fallthrough successor (none at the
end of the sequence); the four Booleans are the classification flags
does_jump(), no_next(), pushes_block(), pops_block(). -/
structure Instruction where
  index : Nat
  cat : OpCategory
  target : Option Nat
  next : Option Nat
  does_jump : Bool
  no_next : Bool
  pushes_block : Bool
  pops_block : Bool
deriving DecidableEq

instance : Inhabited Instruction :=
  ⟨⟨0, OpCategory.OTHER, none, none, false, false, false, false⟩⟩

/-- blocks.py Block: a node of the control-flow graph holding a list of
instructions.  The incoming/outgoing edge sets are kept externally in an
edge state (EState below), keyed by block id, following spec section 9. -/
structure Block where
  code : List Instruction
deriving DecidableEq

/-- blocks.py Block.id, defined as code[0].index. -/
def Block.bid (b : Block) : Nat := (b.code.headD default).index

instance : Inhabited Block := ⟨⟨[]⟩⟩

/-- Well-formedness of index fields: the instruction stored at position i
of the sequence carries index i (instruction identity). -/
def IndexOk (bc : List Instruction) : Prop :=
  ∀ i : Fin bc.length, (bc.get i).index = i.val

/-- Well-formedness of fallthrough links: next is either absent or the
immediately following instruction of the sequence (the meaning of
"fallthrough successor" in the input contract). -/
def NextOk (bc : List Instruction) : Prop :=
  ∀ i : Fin bc.length,
    (bc.get i).next = none ∨
      ((bc.get i).next = some (i.val + 1) ∧ i.val + 1 < bc.length)

/-- The input contract for a decoded instruction sequence. -/
def Wf (bc : List Instruction) : Prop := IndexOk bc ∧ NextOk bc

instance (bc : List Instruction) : Decidable (IndexOk bc) := by
  unfold IndexOk; infer_instance

instance (bc : List Instruction) : Decidable (NextOk bc) := by
  unfold NextOk; infer_instance

instance (bc : List Instruction) : Decidable (Wf bc) := by
  unfold Wf; infer_instance

/-! ## The basic block splitter (blocks.py _split_bytecode) -/

/-- blocks.py line 280: targets = set of op.target for op in bytecode
with a target. -/
def targetsOf (bc : List Instruction) : List Nat := bc.filterMap (·.target)

/-- The split condition of blocks.py lines 285-286: the current block is
closed after op when op.no_next() or op.does_jump() or op.pops_block() or
op.next is None or op.next is a jump target. -/
def closesBlock (targets : List Nat) (op : Instruction) : Bool :=
  op.no_next || op.does_jump || op.pops_block ||
    match op.next with
    | none => true
    | some nx => decide (nx ∈ targets)

/-- The loop of _split_bytecode: code accumulates the pending block. -/
def splitAux (targets : List Nat) : List Instruction → List Instruction → List Block
  | [], _acc => []
  | op :: rest, acc =>
    if closesBlock targets op then
      Block.mk (acc ++ [op]) :: splitAux targets rest []
    else
      splitAux targets rest (acc ++ [op])

/-- blocks.py _split_bytecode (lines 266-289). -/
def _split_bytecode (bc : List Instruction) : List Block :=
  splitAux (targetsOf bc) bc []

/-! ## The implicit block-target resolver (blocks.py add_pop_block_targets) -/

/-- Lookup of the instruction behind an index held on the block stack or in
the todo list (a reference in the Python code). -/
def instrAt (bc : List Instruction) (i : Nat) : Instruction := bc.getD i default

/-- blocks.py lines 237-240 (RAISE_VARARGS): target of the innermost
active SETUP_FINALLY entry of the block stack, if any.  The stack is held
innermost-first. -/
def findHandlerTarget (bc : List Instruction) : List Nat → Option Nat
  | [] => none
  | b :: rest =>
    if (instrAt bc b).cat = OpCategory.SETUP_FINALLY then (instrAt bc b).target
    else findHandlerTarget bc rest

/-- blocks.py lines 243-245 (BREAK_LOOP): innermost SETUP_LOOP entry of the
block stack together with the stack below it. -/
def findLoopEntry (bc : List Instruction) : List Nat → Option (Nat × List Nat)
  | [] => none
  | b :: rest =>
    if (instrAt bc b).cat = OpCategory.SETUP_LOOP then some (b, rest)
    else findLoopEntry bc rest

/-- One iteration body of the add_pop_block_targets worklist (blocks.py
lines 229-263) for an instruction op processed with block stack stack
(innermost entry first).  Returns the block_target value assigned to op
(none when left unset) and the list of todo pushes in Python append order;
the final fallthrough push of lines 261-263 is included.  Errors are the
assertion failures of the Python code.  Where the Python code would push a
missing (None) target and crash on a later iteration, the error is raised
here directly. -/
def resolveStep (bc : List Instruction) (op : Instruction) (stack : List Nat) :
    Except String (Option Nat × List (Nat × List Nat)) := do
  let (btOpt, stack2, branchPushes) ←
    if op.cat = OpCategory.POP_BLOCK then
      match stack with
      | [] => Except.error "POP_BLOCK without block."
      | top :: rest =>
          Except.ok ((instrAt bc top).target, rest, ([] : List (Nat × List Nat)))
    else if op.cat = OpCategory.RAISE_VARARGS then
      Except.ok (findHandlerTarget bc stack, stack, [])
    else if op.cat = OpCategory.BREAK_LOOP then
      match findLoopEntry bc stack with
      | none => Except.ok (none, stack, [])
      | some (b, below) =>
          match (instrAt bc b).target with
          | none => Except.error "SETUP_LOOP without target"
          | some t =>
              if t = op.index then Except.error "BREAK_LOOP jumps to itself"
              else Except.ok (some t, stack, [(t, below)])
    else if op.cat = OpCategory.SETUP_FINALLY then
      match op.target with
      | none => Except.error "SETUP_FINALLY without target"
      | some t => Except.ok (none, op.index :: stack, [(t, stack)])
    else if op.pushes_block then
      match op.target with
      | none => Except.error "pushes_block without target"
      | some _t => Except.ok (none, op.index :: stack, [])
    else if op.does_jump && op.target.isSome then
      Except.ok (none, stack, [(op.target.getD 0, stack)])
    else
      Except.ok (none, stack, [])
  if op.no_next then
    Except.ok (btOpt, branchPushes)
  else
    match op.next with
    | none => Except.error "Bad instruction at end of bytecode."
    | some nx => Except.ok (btOpt, branchPushes ++ [(nx, stack2)])

/-- The worklist loop of add_pop_block_targets.  todo holds (instruction
index, block stack) pairs with the most recently pushed entry first
(Python appends to and pops from the end of its list).  bt is the
block_target side table.  The fuel only bounds the iteration count; it is
chosen large enough in add_pop_block_targets below. -/
def resolveLoop (bc : List Instruction) :
    Nat → List (Nat × List Nat) → List Nat → (Nat → Option Nat) →
    Except String (Nat → Option Nat)
  | 0, _, _, _ => Except.error "out of fuel"
  | _f + 1, [], _, bt => Except.ok bt
  | f + 1, (i, stk) :: rest, seen, bt =>
    if i ∈ seen then resolveLoop bc f rest seen bt
    else
      match resolveStep bc (instrAt bc i) stk with
      | Except.error e => Except.error e
      | Except.ok (btOpt, pushes) =>
          resolveLoop bc f (pushes.reverse ++ rest) (i :: seen)
            (fun j => if j = i then btOpt else bt j)

/-- blocks.py add_pop_block_targets (lines 194-263): computes the
block_target side table.  Every instruction is processed at most once
(the seen set) and each processed instruction contributes at most two
pushes, so 2 * length + 2 iterations always suffice. -/
def add_pop_block_targets (bc : List Instruction) :
    Except String (Nat → Option Nat) :=
  if bc.isEmpty then Except.ok (fun _ => none)
  else
    resolveLoop bc (2 * bc.length + 2) [((bc.headD default).index, [])] []
      (fun _ => none)

/-! ## Edge construction (blocks.py compute_order, Block.connect_outgoing) -/

/-- The incoming/outgoing edge sets of all blocks, keyed by block id.
out holds (source id, target id) pairs added to source.outgoing; inc holds
(target id, source id) pairs added to target.incoming.  The two lists are
updated separately, mirroring the two mutations of Block.connect_outgoing
(blocks.py lines 163-166). -/
structure EState where
  out : List (Nat × Nat)
  inc : List (Nat × Nat)
deriving DecidableEq

/-- blocks.py Block.connect_outgoing: adds target to source.outgoing and
source to target.incoming. -/
def connect (st : EState) (src tgt : Nat) : EState :=
  ⟨(src, tgt) :: st.out, (tgt, src) :: st.inc⟩

/-- The members of a block's outgoing set. -/
def outOf (st : EState) (u : Nat) : List Nat :=
  (st.out.filter (fun e => e.1 == u)).map (·.2)

/-- The members of a block's incoming set. -/
def incOf (st : EState) (v : Nat) : List Nat :=
  (st.inc.filter (fun e => e.1 == v)).map (·.2)

/-- blocks.py line 305: the dictionary from first instruction to block,
looked up here by instruction index (= Block.bid). -/
def findByEntry (blocks : List Block) (t : Nat) : Option Block :=
  blocks.find? (fun b => b.bid == t)

/-- One conditional connect_outgoing call of the compute_order loop: when
tgt is present it must be the entry instruction of a known block (a Python
KeyError, modelled as none, otherwise). -/
def connectTo (blocks : List Block) (st : EState) (src : Nat) (tgt : Option Nat) :
    Option EState :=
  match tgt with
  | none => some st
  | some t => (findByEntry blocks t).map (fun tb => connect st src tb.bid)

/-- The body of the compute_order edge loop (blocks.py lines 306-317) for
one block b whose successor in split order is nextB: fallthrough edge,
first-instruction target edge, last-instruction target edge, block_target
edge, in source order. -/
def processBlock (blocks : List Block) (bt : Nat → Option Nat) (b : Block)
    (nextB : Option Block) (st : EState) : Option EState := do
  let first_op := b.code.headD default
  let last_op := b.code.getLastD default
  let st1 :=
    match nextB with
    | some nb => if last_op.no_next then st else connect st b.bid nb.bid
    | none => st
  let st2 ← connectTo blocks st1 b.bid first_op.target
  let st3 ← connectTo blocks st2 b.bid last_op.target
  connectTo blocks st3 b.bid (bt last_op.index)

/-- The edge loop of compute_order over the remaining blocks; the head of
the remaining list is processed with the next remaining block as its
fallthrough successor (blocks[i+1] in the Python code). -/
def computeEdgesAux (blocks : List Block) (bt : Nat → Option Nat) :
    List Block → EState → Option EState
  | [], st => some st
  | b :: rest, st => do
    let st' ← processBlock blocks bt b rest.head? st
    computeEdgesAux blocks bt rest st'

/-- All edges built by compute_order (blocks.py lines 306-317). -/
def computeEdges (blocks : List Block) (bt : Nat → Option Nat) : Option EState :=
  computeEdgesAux blocks bt blocks ⟨[], []⟩

/-! ## Ancestor-first ordering

The ordering routine cfg_utils.order_nodes is delegated to by
compute_order but its source is not part of this tree; it is modelled
from the spec (section 4.3): a depth-first traversal from the entry
block, visiting outgoing edges in ascending target-id order, prepending
each block on completion (reverse postorder); blocks unreachable from the
entry are omitted. -/

/-- Insertion into an ascending list. -/
def insertAsc (x : Nat) : List Nat → List Nat
  | [] => [x]
  | y :: ys => if x ≤ y then x :: y :: ys else y :: insertAsc x ys

/-- Ascending insertion sort. -/
def sortAsc (l : List Nat) : List Nat := l.foldr insertAsc []

/-- The successor function used by the traversal: the outgoing set of a
block, deduplicated and in ascending id order. -/
def succOf (st : EState) (u : Nat) : List Nat := sortAsc (outOf st u).dedup

/-- The traversal state: vis = discovered blocks (gray or black), post =
finished blocks in reverse postorder (most recently finished first),
back = edges found to lead to a block that was discovered but not yet
finished (on the traversal stack). -/
structure DfsSt where
  vis : List Nat
  post : List Nat
  back : List (Nat × Nat)
deriving DecidableEq

/-- Processing of the successor list of block par: an edge to a block on
the traversal stack (discovered, unfinished) is recorded as a back edge;
otherwise the step function (the recursive visit) is applied. -/
def dfsKids (step : Nat → DfsSt → DfsSt) (par : Nat) :
    List Nat → DfsSt → DfsSt
  | [], s => s
  | w :: ws, s =>
    let s1 :=
      if w ∈ s.vis ∧ w ∉ s.post then
        { s with back := (par, w) :: s.back }
      else step w s
    dfsKids step par ws s1

/-- Modelled from the spec: the depth-first visit underlying
cfg_utils.order_nodes.  A block already discovered is skipped; otherwise
it is discovered, its successors are visited in ascending id order, and
on completion it is prepended to the reverse postorder.  The fuel bounds
the recursion depth and is chosen large enough by orderRun below. -/
def dfsNode (succ : Nat → List Nat) : Nat → Nat → DfsSt → DfsSt
  | 0, _, s => s
  | f + 1, u, s =>
    if u ∈ s.vis then s
    else
      let s2 := dfsKids (fun w t => dfsNode succ f w t) u (succ u)
        { s with vis := u :: s.vis }
      { s2 with post := u :: s2.post }

/-- The set of node ids that can ever be discovered: the entry block and
every edge target.  The successor function of st maps into it, so its
size bounds the number of discoverable blocks. -/
def univOf (st : EState) (entry : Nat) : List Nat := entry :: st.out.map (·.2)

/-- The entry block id: the block containing the first instruction is
the first block of the split, and its id is its first instruction. -/
def entryOf (blocks : List Block) : Nat := (blocks.headD default).bid

/-- The complete traversal from the entry block, with sufficient fuel. -/
def orderRun (st : EState) (blocks : List Block) : DfsSt :=
  dfsNode (succOf st) ((univOf st (entryOf blocks)).length + 1)
    (entryOf blocks) ⟨[], [], []⟩

/-- The back edges found by the traversal. -/
def backEdges (st : EState) (blocks : List Block) : List (Nat × Nat) :=
  (orderRun st blocks).back

/-- Modelled from the spec: cfg_utils.order_nodes.  The reverse postorder
of the traversal, mapped back to blocks. -/
def order_nodes (st : EState) (blocks : List Block) : List Block :=
  (orderRun st blocks).post.filterMap (findByEntry blocks)

/-- blocks.py compute_order (lines 292-318), with the block_target side
table bt produced by the resolver passed explicitly. -/
def compute_order (bc : List Instruction) (bt : Nat → Option Nat) :
    Option (List Block) :=
  let blocks := _split_bytecode bc
  (computeEdges blocks bt).map (fun st => order_nodes st blocks)

/-- The edge relation built by compute_order. -/
def EdgeOf (st : EState) (u v : Nat) : Prop := (u, v) ∈ st.out

/-- Reachability along built edges. -/
def ReachE (st : EState) (u v : Nat) : Prop :=
  Relation.ReflTransGen (EdgeOf st) u v

/-- Reachability along a successor function. -/
def ReachS (succ : Nat → List Nat) (u v : Nat) : Prop :=
  Relation.ReflTransGen (fun a b => b ∈ succ a) u v

/-- a appears strictly before b in the list l. -/
def Before (l : List Nat) (a b : Nat) : Prop :=
  ∃ i j, i < j ∧ l.get? i = some a ∧ l.get? j = some b

/-! ## The ordered code unit (blocks.py OrderedCode) -/

/-- Modelled from the spec: the flag bit constants of
pyc/loadmarshal.py CodeType, whose source is not part of this tree;
distinct single-bit masks (the standard CPython values). -/
def CO_GENERATOR : Nat := 32

/-- Modelled from the spec: loadmarshal CodeType.CO_COROUTINE. -/
def CO_COROUTINE : Nat := 128

/-- Modelled from the spec: loadmarshal CodeType.CO_ITERABLE_COROUTINE. -/
def CO_ITERABLE_COROUTINE : Nat := 256

/-- blocks.py OrderedCode, restricted to the fields the claims touch:
the recorded source format version, the 3.11+ combined variable name
table, the cell and free variable name tables, and the flag bitset. -/
structure OrderedCode where
  python_version : Nat × Nat
  co_localsplusnames : Option (List String)
  cellvars : List String
  freevars : List String
  co_flags : Nat
deriving DecidableEq

/-- Tuple comparison a >= b on version pairs (Python tuple ordering). -/
def versionGE (a b : Nat × Nat) : Bool :=
  b.1 < a.1 || (a.1 == b.1 && b.2 ≤ a.2)

/-- blocks.py OrderedCode.get_closure_var_name (lines 122-131).  List
indexing out of range (a Python IndexError) yields none. -/
def get_closure_var_name (c : OrderedCode) (arg : Nat) : Option String :=
  if versionGE c.python_version (3, 11) then
    match c.co_localsplusnames with
    | some tbl => tbl.get? arg
    | none => none
  else
    let n_cellvars := c.cellvars.length
    if arg < n_cellvars then c.cellvars.get? arg
    else c.freevars.get? (arg - n_cellvars)

/-- blocks.py OrderedCode.has_generator. -/
def has_generator (c : OrderedCode) : Bool := c.co_flags &&& CO_GENERATOR != 0

/-- blocks.py OrderedCode.has_coroutine. -/
def has_coroutine (c : OrderedCode) : Bool := c.co_flags &&& CO_COROUTINE != 0

/-- blocks.py OrderedCode.has_iterable_coroutine. -/
def has_iterable_coroutine (c : OrderedCode) : Bool :=
  c.co_flags &&& CO_ITERABLE_COROUTINE != 0

/-- blocks.py OrderedCode.set_iterable_coroutine: the one controlled
mutation of the flag bitset. -/
def set_iterable_coroutine (c : OrderedCode) : OrderedCode :=
  { c with co_flags := c.co_flags ||| CO_ITERABLE_COROUTINE }

/-! ## Auxiliary predicates for the traversal proofs -/

/-- Number of members of univ not yet discovered; bounds the work the
traversal can still do. -/
def unvisCount (univ vis : List Nat) : Nat :=
  (univ.filter (fun x => decide (x ∉ vis))).length

/-- Every successor of any node lies in univ. -/
def SuccClosed (succ : Nat → List Nat) (univ : List Nat) : Prop :=
  ∀ x w, w ∈ succ x → w ∈ univ

/-- The relation between a traversal state and a later one: discoveries
and back edges only grow, the reverse postorder grows by prepending, a
newly finished block was newly discovered, and a newly discovered block
is finished. -/
def DfsLe (s t : DfsSt) : Prop :=
  (∀ x, x ∈ s.vis → x ∈ t.vis) ∧
  s.post.IsSuffix t.post ∧
  (∀ e, e ∈ s.back → e ∈ t.back) ∧
  (∀ x, x ∈ t.post → x ∈ s.post ∨ x ∉ s.vis) ∧
  (∀ x, x ∈ t.vis → x ∈ s.vis ∨ x ∈ t.post)

/-- The ordering invariant of the traversal: every edge out of a finished
block either was recorded as a back edge or leads to a finished block
that finished earlier (appears later in the reverse postorder). -/
def OrdInv (succ : Nat → List Nat) (s : DfsSt) : Prop :=
  ∀ u v, u ∈ s.post → v ∈ succ u →
    (u, v) ∈ s.back ∨ (v ∈ s.post ∧ Before s.post u v)

/-! ## Concrete inputs used by the witnesses -/

/-- Shorthand constructor for instruction records. -/
def mkI (idx : Nat) (c : OpCategory) (tg nx : Option Nat)
    (dj nn pb pop : Bool) : Instruction :=
  ⟨idx, c, tg, nx, dj, nn, pb, pop⟩

/-- The all-unset block_target side table. -/
def btNone : Nat → Option Nat := fun _ => none

/-- A conditional: plain op, conditional jump to 3, plain op whose
fallthrough is the jump target, return. -/
def exSplit : List Instruction :=
  [mkI 0 OpCategory.OTHER none (some 1) false false false false,
   mkI 1 OpCategory.OTHER (some 3) (some 2) true false false false,
   mkI 2 OpCategory.OTHER none (some 3) false false false false,
   mkI 3 OpCategory.OTHER none none false true false false]

/-- The first block of the split of exSplit. -/
def exSplitB0 : Block :=
  ⟨[mkI 0 OpCategory.OTHER none (some 1) false false false false,
    mkI 1 OpCategory.OTHER (some 3) (some 2) true false false false]⟩

/-- A try body: SETUP_FINALLY guarding a return, then the handler.  The
SETUP_FINALLY is the first but not the last instruction of its block. -/
def exEdge : List Instruction :=
  [mkI 0 OpCategory.SETUP_FINALLY (some 2) (some 1) false false true false,
   mkI 1 OpCategory.OTHER none none false true false false,
   mkI 2 OpCategory.OTHER none none false true false false]

/-- The try-body block of exEdge. -/
def exEdgeB0 : Block :=
  ⟨[mkI 0 OpCategory.SETUP_FINALLY (some 2) (some 1) false false true false,
    mkI 1 OpCategory.OTHER none none false true false false]⟩

/-- The handler block of exEdge. -/
def exEdgeB2 : Block :=
  ⟨[mkI 2 OpCategory.OTHER none none false true false false]⟩

/-- A lone terminal BREAK_LOOP: no loop-setup entry is ever active. -/
def exBrk : List Instruction :=
  [mkI 0 OpCategory.BREAK_LOOP none none false true false false]

/-- A BREAK_LOOP with a fallthrough successor. -/
def opBrkFall : Instruction :=
  mkI 0 OpCategory.BREAK_LOOP none (some 1) false false false false

/-- A bytecode whose instruction 0 is a SETUP_LOOP targeting 3. -/
def bcPop : List Instruction :=
  [mkI 0 OpCategory.SETUP_LOOP (some 3) (some 1) false false true false]

/-- A POP_BLOCK instruction with fallthrough successor 2. -/
def opPop : Instruction :=
  mkI 1 OpCategory.POP_BLOCK none (some 2) false false false true

/-- A SETUP_FINALLY instruction targeting 5 with fallthrough 1. -/
def opSetupF : Instruction :=
  mkI 0 OpCategory.SETUP_FINALLY (some 5) (some 1) false false true false

/-- A 3.11-format code unit with a combined name table. -/
def exOC11 : OrderedCode :=
  ⟨(3, 11), some ["a", "b"], [], [], 0⟩

/-- A 3.10-format code unit with cell and free variable tables and the
generator flag set. -/
def exOC10 : OrderedCode :=
  ⟨(3, 10), none, ["c1"], ["f1"], 32⟩

/-! ## Flag bit lemmas -/

theorem lor_and_self (f b : Nat) : (f ||| b) &&& b = b := by
  apply Nat.eq_of_testBit_eq
  intro k
  rw [Nat.testBit_land, Nat.testBit_lor]
  cases f.testBit k <;> cases b.testBit k <;> rfl

theorem lor_pow_and_pow (f : Nat) (i j : Nat) (h : i ≠ j) :
    (f ||| 2 ^ i) &&& 2 ^ j = f &&& 2 ^ j := by
  apply Nat.eq_of_testBit_eq
  intro k
  rw [Nat.testBit_land, Nat.testBit_land, Nat.testBit_lor]
  by_cases hk : k = j
  · subst hk
    rw [Nat.testBit_two_pow_of_ne h]
    cases f.testBit k <;> rfl
  · rw [Nat.testBit_two_pow_of_ne (fun hj => hk hj.symm)]
    cases f.testBit k || (2 ^ i).testBit k <;> cases f.testBit k <;> rfl

/-- C8: a code unit whose flag bitset has the generator bit set and the
coroutine bit clear reports has_generator true and has_coroutine false;
after set_iterable_coroutine, has_iterable_coroutine is true while
has_generator and has_coroutine are unchanged. -/
theorem flags_generator_coroutine_spec (c : OrderedCode)
    (hg : c.co_flags &&& CO_GENERATOR ≠ 0)
    (hc : c.co_flags &&& CO_COROUTINE = 0) :
    has_generator c = true ∧ has_coroutine c = false ∧
    has_iterable_coroutine (set_iterable_coroutine c) = true ∧
    has_generator (set_iterable_coroutine c) = has_generator c ∧
    has_coroutine (set_iterable_coroutine c) = has_coroutine c := by
  have h32 : (CO_GENERATOR : Nat) = 2 ^ 5 := by decide
  have h128 : (CO_COROUTINE : Nat) = 2 ^ 7 := by decide
  have h256 : (CO_ITERABLE_COROUTINE : Nat) = 2 ^ 8 := by decide
  refine ⟨?_, ?_, ?_, ?_, ?_⟩
  · simp [has_generator, bne_iff_ne, hg]
  · simp [has_coroutine, hc]
  · simp only [has_iterable_coroutine, set_iterable_coroutine,
      lor_and_self, bne_iff_ne, ne_eq]
    decide
  · simp only [has_generator, set_iterable_coroutine, h256, h32]
    rw [lor_pow_and_pow c.co_flags 8 5 (by decide)]
  · simp only [has_coroutine, set_iterable_coroutine, h256, h128]
    rw [lor_pow_and_pow c.co_flags 8 7 (by decide)]

/-- Witness for flags_generator_coroutine_spec at a concrete unit with
flag bitset 32 (generator bit only). -/
theorem flags_generator_coroutine_spec_witness :
    exOC10.co_flags &&& CO_GENERATOR ≠ 0 ∧
    exOC10.co_flags &&& CO_COROUTINE = 0 ∧
    (has_generator exOC10 = true ∧ has_coroutine exOC10 = false ∧
      has_iterable_coroutine (set_iterable_coroutine exOC10) = true ∧
      has_generator (set_iterable_coroutine exOC10) = has_generator exOC10 ∧
      has_coroutine (set_iterable_coroutine exOC10) = has_coroutine exOC10) :=
  ⟨by decide, by decide,
    flags_generator_coroutine_spec exOC10 (by decide) (by decide)⟩

/-- C7: closure slot resolution.  On a 3.11+ unit the combined table is
indexed directly; otherwise an index below the cell-variable count indexes
the cell table and any other in-range index indexes the free-variable
table at the index minus the cell count. -/
theorem get_closure_var_name_spec (c : OrderedCode) :
    (∀ (tbl : List String) (i : Nat)
      (_ : versionGE c.python_version (3, 11) = true)
      (_ : c.co_localsplusnames = some tbl) (h : i < tbl.length),
      get_closure_var_name c i = some (tbl.get ⟨i, h⟩)) ∧
    (∀ i : Nat, versionGE c.python_version (3, 11) = false →
      ∀ h : i < c.cellvars.length,
      get_closure_var_name c i = some (c.cellvars.get ⟨i, h⟩)) ∧
    (∀ i : Nat, versionGE c.python_version (3, 11) = false →
      c.cellvars.length ≤ i →
      ∀ h : i - c.cellvars.length < c.freevars.length,
      get_closure_var_name c i =
        some (c.freevars.get ⟨i - c.cellvars.length, h⟩)) := by
  refine ⟨?_, ?_, ?_⟩
  · intro tbl i hv htbl h
    simp [get_closure_var_name, hv, htbl, List.get?_eq_get h]
  · intro i hv h
    simp [get_closure_var_name, hv, h, List.get?_eq_get h]
  · intro i hv hge h
    simp [get_closure_var_name, hv, Nat.not_lt.mpr hge, List.get?_eq_get h]

/-- Witness for get_closure_var_name_spec on a 3.11 unit and a 3.10
unit with one cell and one free variable. -/
theorem get_closure_var_name_spec_witness :
    get_closure_var_name exOC11 1 = some "b" ∧
    get_closure_var_name exOC10 0 = some "c1" ∧
    get_closure_var_name exOC10 1 = some "f1" :=
  ⟨(get_closure_var_name_spec exOC11).1 ["a", "b"] 1 rfl rfl (by decide),
   (get_closure_var_name_spec exOC10).2.1 0 rfl (by decide),
   (get_closure_var_name_spec exOC10).2.2 1 rfl (by decide) (by decide)⟩

/-! ## Resolver step claims -/

/-- C5: a POP_BLOCK with an empty context stack fails fatally; with a
non-empty stack its block_target becomes the target of the top stack
entry and the search continues at the fallthrough successor with that
entry popped off. -/
theorem pop_block_step_spec (bc : List Instruction) (op : Instruction)
    (h : op.cat = OpCategory.POP_BLOCK) :
    (resolveStep bc op [] = Except.error "POP_BLOCK without block.") ∧
    (∀ (top : Nat) (rest : List Nat) (nx : Nat), op.no_next = false →
      op.next = some nx →
      resolveStep bc op (top :: rest) =
        Except.ok ((instrAt bc top).target, [(nx, rest)])) ∧
    (∀ (top : Nat) (rest : List Nat), op.no_next = true →
      resolveStep bc op (top :: rest) =
        Except.ok ((instrAt bc top).target, [])) := by
  refine ⟨?_, ?_, ?_⟩
  · simp [resolveStep, h, Bind.bind, Except.bind]
  · intro top rest nx hnn hnx
    simp [resolveStep, h, hnn, hnx, Bind.bind, Except.bind]
  · intro top rest hnn
    simp [resolveStep, h, hnn, Bind.bind, Except.bind]

/-- Witness for pop_block_step_spec: instruction 0 of bcPop is a
SETUP_LOOP targeting 3, so popping it yields block_target 3 and the
search continues at the fallthrough with the emptied stack. -/
theorem pop_block_step_spec_witness :
    resolveStep bcPop opPop [] = Except.error "POP_BLOCK without block." ∧
    resolveStep bcPop opPop [0] = Except.ok (some 3, [(2, [])]) :=
  ⟨(pop_block_step_spec bcPop opPop rfl).1,
   (pop_block_step_spec bcPop opPop rfl).2.1 0 [] 2 rfl rfl⟩

/-- C6: an exception-handler setup seeds the search at its explicit
target with the pre-push stack, and continues at its fallthrough
successor with itself pushed as the new innermost active entry. -/
theorem setup_except_step_spec (bc : List Instruction) (op : Instruction)
    (stack : List Nat) (t nx : Nat)
    (h : op.cat = OpCategory.SETUP_FINALLY)
    (ht : op.target = some t) (hnn : op.no_next = false)
    (hnx : op.next = some nx) :
    resolveStep bc op stack =
      Except.ok (none, [(t, stack), (nx, op.index :: stack)]) := by
  simp [resolveStep, h, ht, hnn, hnx, Bind.bind, Except.bind]

/-- Witness for setup_except_step_spec: a SETUP_FINALLY at index 0
targeting 5 processed with stack [7]. -/
theorem setup_except_step_spec_witness :
    resolveStep [] opSetupF [7] =
      Except.ok (none, [(5, [7]), (1, [0, 7])]) :=
  setup_except_step_spec [] opSetupF [7] 5 1 rfl rfl rfl rfl

/-- C4 counterexample: on a bytecode consisting of one terminal
BREAK_LOOP (no loop-setup is ever active) the resolver completes without
any error and leaves the instruction's block_target unset, contradicting
the claim that it fails fatally. -/
theorem break_loop_no_loop_cex :
    (add_pop_block_targets exBrk).map (fun f => f 0) = Except.ok none := by
  rfl

/-- C4 amended: a BREAK_LOOP processed while no loop-setup entry is
active on the context stack silently sets no block_target and continues
only with its normal fallthrough successor, without error. -/
theorem break_loop_no_loop_silent (bc : List Instruction) (op : Instruction)
    (stack : List Nat) (h : op.cat = OpCategory.BREAK_LOOP)
    (hf : findLoopEntry bc stack = none) :
    (op.no_next = true → resolveStep bc op stack = Except.ok (none, [])) ∧
    (∀ nx : Nat, op.no_next = false → op.next = some nx →
      resolveStep bc op stack = Except.ok (none, [(nx, stack)])) := by
  constructor
  · intro hnn
    simp [resolveStep, h, hf, hnn, Bind.bind, Except.bind]
  · intro nx hnn hnx
    simp [resolveStep, h, hf, hnn, hnx, Bind.bind, Except.bind]

/-- Witness for break_loop_no_loop_silent: a BREAK_LOOP with fallthrough
1 processed with an empty stack. -/
theorem break_loop_no_loop_silent_witness :
    resolveStep [] opBrkFall [] = Except.ok (none, [(1, [])]) :=
  (break_loop_no_loop_silent [] opBrkFall [] rfl rfl).2 1 rfl rfl

/-! ## Splitter lemmas -/

theorem splitAux_cons (targets : List Nat) (op : Instruction)
    (rest acc : List Instruction) :
    splitAux targets (op :: rest) acc =
      if closesBlock targets op then
        Block.mk (acc ++ [op]) :: splitAux targets rest []
      else splitAux targets rest (acc ++ [op]) := rfl

theorem splitAux_join (targets : List Nat) :
    ∀ (l acc : List Instruction) (lastOp : Instruction),
      l.getLast? = some lastOp → closesBlock targets lastOp = true →
      ((splitAux targets l acc).map Block.code).flatten = acc ++ l := by
  intro l
  induction l with
  | nil => intro acc lastOp hl _; simp at hl
  | cons op rest ih =>
    intro acc lastOp hl hc
    cases rest with
    | nil =>
      simp at hl
      subst hl
      simp [splitAux_cons, splitAux, hc]
    | cons op2 rest2 =>
      rw [List.getLast?_cons_cons] at hl
      rw [splitAux_cons]
      by_cases hco : closesBlock targets op = true
      · rw [if_pos hco, List.map_cons, List.flatten_cons, ih [] lastOp hl hc]
        simp
      · rw [if_neg hco, ih (acc ++ [op]) lastOp hl hc]
        simp

theorem last_closes (bc : List Instruction) (h : NextOk bc)
    (lastOp : Instruction) (hl : bc.getLast? = some lastOp) :
    closesBlock (targetsOf bc) lastOp = true := by
  rw [List.getLast?_eq_get?] at hl
  rcases List.get?_eq_some.mp hl with ⟨hlt, hget⟩
  rcases h ⟨bc.length - 1, hlt⟩ with hnone | ⟨_, hbad⟩
  · rw [hget] at hnone
    simp [closesBlock, hnone]
  · simp only [Fin.val_mk] at hbad
    omega

/-- C1: the blocks produced by the splitter concatenate, in order, to
exactly the input instruction sequence. -/
theorem split_bytecode_concat (bc : List Instruction) (h : Wf bc) :
    ((_split_bytecode bc).map Block.code).flatten = bc := by
  cases hbc : bc.getLast? with
  | none =>
    rw [List.getLast?_eq_none_iff] at hbc
    subst hbc
    rfl
  | some lastOp =>
    have := splitAux_join (targetsOf bc) bc [] lastOp hbc
      (last_closes bc h.2 lastOp hbc)
    simpa [_split_bytecode] using this

/-- Witness for split_bytecode_concat on the conditional example. -/
theorem split_bytecode_concat_witness :
    Wf exSplit ∧
      ((_split_bytecode exSplit).map Block.code).flatten = exSplit :=
  ⟨by decide, split_bytecode_concat exSplit (by decide)⟩

theorem splitAux_dropLast (targets : List Nat) :
    ∀ (l acc : List Instruction),
      (∀ x ∈ acc, closesBlock targets x = false) →
      ∀ b ∈ splitAux targets l acc, ∀ op ∈ b.code.dropLast,
        closesBlock targets op = false := by
  intro l
  induction l with
  | nil => intro acc _ b hb; simp [splitAux] at hb
  | cons op rest ih =>
    intro acc hacc b hb
    rw [splitAux_cons] at hb
    by_cases hco : closesBlock targets op = true
    · rw [if_pos hco, List.mem_cons] at hb
      rcases hb with hb | hb
      · subst hb
        intro x hx
        rw [List.dropLast_concat] at hx
        exact hacc x hx
      · exact ih [] (by simp) b hb
    · rw [if_neg hco] at hb
      refine ih (acc ++ [op]) ?_ b hb
      intro x hx
      rcases List.mem_append.mp hx with hx | hx
      · exact hacc x hx
      · simp at hx
        subst hx
        simpa using hco

theorem indexOk_get? (bc : List Instruction) (h : IndexOk bc) {j : Nat}
    {op : Instruction} (hj : bc.get? j = some op) : op.index = j := by
  rcases List.get?_eq_some.mp hj with ⟨hlt, hget⟩
  rw [← hget]
  exact h ⟨j, hlt⟩

theorem nextOk_get? (bc : List Instruction) (h : NextOk bc) {j : Nat}
    {op : Instruction} (hj : bc.get? j = some op) :
    op.next = none ∨ (op.next = some (j + 1) ∧ j + 1 < bc.length) := by
  rcases List.get?_eq_some.mp hj with ⟨hlt, hget⟩
  rw [← hget]
  have := h ⟨j, hlt⟩
  simpa using this

theorem splitAux_slice (targets : List Nat) (bc : List Instruction) :
    ∀ (l acc : List Instruction) (m : Nat), acc ++ l = bc.drop m →
      ∀ b ∈ splitAux targets l acc,
        ∃ p, b.code ≠ [] ∧
          ∀ k, k < b.code.length → b.code.get? k = bc.get? (p + k) := by
  intro l
  induction l with
  | nil => intro acc m _ b hb; simp [splitAux] at hb
  | cons op rest ih =>
    intro acc m hm b hb
    rw [splitAux_cons] at hb
    by_cases hco : closesBlock targets op = true
    · rw [if_pos hco, List.mem_cons] at hb
      rcases hb with hb | hb
      · subst hb
        refine ⟨m, by simp, ?_⟩
        intro k hk
        have hsplit : (acc ++ [op]) ++ rest = bc.drop m := by simpa using hm
        calc (Block.mk (acc ++ [op])).code.get? k
            = ((acc ++ [op]) ++ rest).get? k := (List.get?_append hk).symm
          _ = (bc.drop m).get? k := by rw [hsplit]
          _ = bc.get? (m + k) := List.get?_drop bc m k
      · refine ih [] (m + (acc.length + 1)) ?_ b hb
        have h1 : rest = (acc ++ op :: rest).drop (acc.length + 1) := by
          have h : acc ++ op :: rest = (acc ++ [op]) ++ rest := by simp
          have h2 : acc.length + 1 = (acc ++ [op]).length := by simp
          rw [h, h2, List.drop_left]
        rw [List.nil_append, h1, hm, List.drop_drop]
    · rw [if_neg hco] at hb
      refine ih (acc ++ [op]) m ?_ b hb
      simpa using hm

/-- C2: in every block of the split, only the last instruction may have
does_jump, no_next or pops_block set, and no instruction other than the
first is the explicit jump target of any instruction of the input. -/
theorem split_block_invariants (bc : List Instruction) (h : Wf bc)
    (b : Block) (hb : b ∈ _split_bytecode bc) :
    (∀ op ∈ b.code.dropLast,
      op.does_jump = false ∧ op.no_next = false ∧ op.pops_block = false) ∧
    (∀ op ∈ b.code.tail, op.index ∉ targetsOf bc) := by
  have hdl := splitAux_dropLast (targetsOf bc) bc [] (by simp) b hb
  constructor
  · intro op hop
    have hcf := hdl op hop
    simp only [closesBlock, Bool.or_eq_false_iff] at hcf
    exact ⟨hcf.1.1.2, hcf.1.1.1, hcf.1.2⟩
  · obtain ⟨p, hne, hsl⟩ :=
      splitAux_slice (targetsOf bc) bc bc [] 0 (by simp) b hb
    intro op hop
    rw [← List.drop_one] at hop
    obtain ⟨k, hk⟩ := List.mem_iff_get?.mp hop
    rw [List.get?_drop] at hk
    have hk1 : 1 + k < b.code.length := by
      rcases List.get?_eq_some.mp hk with ⟨hlt, _⟩
      exact hlt
    have hklt : k < b.code.length := by omega
    obtain ⟨hklt', hg⟩ := List.get?_eq_some.mp
      (by rw [List.get?_eq_get hklt] : b.code.get? k = some (b.code.get ⟨k, hklt⟩))
    set op' := b.code.get ⟨k, hklt⟩ with hop'
    have hmem : op' ∈ b.code.dropLast := by
      have hlen : k < b.code.dropLast.length := by
        rw [List.length_dropLast]
        omega
      have : b.code.dropLast.get ⟨k, hlen⟩ = op' := by
        rw [hop', List.get_dropLast]
      rw [← this]
      exact List.get_mem _ _ _
    have hcf := hdl op' hmem
    simp only [closesBlock, Bool.or_eq_false_iff] at hcf
    have hnx : op'.next = none ∨ (op'.next = some (p + k + 1) ∧ p + k + 1 < bc.length) := by
      have hjk : bc.get? (p + k) = some op' := by
        rw [← hsl k hklt, List.get?_eq_get hklt]
      exact nextOk_get? bc h.2 hjk
    rcases hnx with hnone | ⟨hsome, _⟩
    · exfalso
      have := hcf.2
      rw [hnone] at this
      simp at this
    · have hnt : ¬ (p + k + 1) ∈ targetsOf bc := by
        have := hcf.2
        rw [hsome] at this
        simpa using this
      have hopidx : op.index = p + (1 + k) := by
        apply indexOk_get? bc h.1
        rw [← hsl (1 + k) hk1]
        exact hk
      rw [hopidx]
      have : p + (1 + k) = p + k + 1 := by omega
      rw [this]
      exact hnt

/-- Witness for split_block_invariants at the two-instruction first
block of the conditional example. -/
theorem split_block_invariants_witness :
    Wf exSplit ∧ exSplitB0 ∈ _split_bytecode exSplit ∧
      ((∀ op ∈ exSplitB0.code.dropLast,
        op.does_jump = false ∧ op.no_next = false ∧ op.pops_block = false) ∧
      (∀ op ∈ exSplitB0.code.tail, op.index ∉ targetsOf exSplit)) :=
  ⟨by decide, by decide,
    split_block_invariants exSplit (by decide) exSplitB0 (by decide)⟩

/-! ## Edge construction lemmas -/

theorem mem_outOf (st : EState) (a b : Nat) :
    b ∈ outOf st a ↔ (a, b) ∈ st.out := by
  simp only [outOf, List.mem_map, List.mem_filter]
  constructor
  · rintro ⟨⟨x, y⟩, ⟨hmem, hx⟩, hy⟩
    simp only [beq_iff_eq] at hx
    subst hx
    subst hy
    exact hmem
  · intro hmem
    exact ⟨(a, b), ⟨hmem, by simp⟩, rfl⟩

theorem mem_incOf (st : EState) (a b : Nat) :
    b ∈ incOf st a ↔ (a, b) ∈ st.inc := by
  simp only [incOf, List.mem_map, List.mem_filter]
  constructor
  · rintro ⟨⟨x, y⟩, ⟨hmem, hx⟩, hy⟩
    simp only [beq_iff_eq] at hx
    subst hx
    subst hy
    exact hmem
  · intro hmem
    exact ⟨(a, b), ⟨hmem, by simp⟩, rfl⟩

/-- The two-sided consistency property of an edge state. -/
theorem connect_consistent (st : EState) (u v : Nat)
    (h : ∀ a b : Nat, (a, b) ∈ st.out ↔ (b, a) ∈ st.inc) :
    ∀ a b : Nat, (a, b) ∈ (connect st u v).out ↔ (b, a) ∈ (connect st u v).inc := by
  intro a b
  simp only [connect, List.mem_cons, Prod.mk.injEq]
  rw [h a b]
  tauto

theorem connectTo_consistent (blocks : List Block) (st st' : EState)
    (src : Nat) (tgt : Option Nat) (hc : connectTo blocks st src tgt = some st')
    (h : ∀ a b : Nat, (a, b) ∈ st.out ↔ (b, a) ∈ st.inc) :
    ∀ a b : Nat, (a, b) ∈ st'.out ↔ (b, a) ∈ st'.inc := by
  cases tgt with
  | none =>
    simp only [connectTo, Option.some.injEq] at hc
    subst hc
    exact h
  | some t =>
    simp only [connectTo, Option.map_eq_some'] at hc
    rcases hc with ⟨tb, _, hst⟩
    subst hst
    exact connect_consistent st src tb.bid h

theorem processBlock_consistent (blocks : List Block) (bt : Nat → Option Nat)
    (b : Block) (nextB : Option Block) (st st' : EState)
    (hp : processBlock blocks bt b nextB st = some st')
    (h : ∀ a b' : Nat, (a, b') ∈ st.out ↔ (b', a) ∈ st.inc) :
    ∀ a b' : Nat, (a, b') ∈ st'.out ↔ (b', a) ∈ st'.inc := by
  simp only [processBlock, bind, Option.bind_eq_bind, Option.bind_eq_some] at hp
  rcases hp with ⟨st2, hst2, st3, hst3, hst4⟩
  have h1 : ∀ a b' : Nat,
      (a, b') ∈ (match nextB with
        | some nb =>
          if (b.code.getLastD default).no_next then st else connect st b.bid nb.bid
        | none => st).out ↔
      (b', a) ∈ (match nextB with
        | some nb =>
          if (b.code.getLastD default).no_next then st else connect st b.bid nb.bid
        | none => st).inc := by
    cases nextB with
    | none => exact h
    | some nb =>
      by_cases hnn : (b.code.getLastD default).no_next = true
      · simp only [if_pos hnn]
        exact h
      · simp only [if_neg hnn]
        exact connect_consistent st b.bid nb.bid h
  have h2 := connectTo_consistent blocks _ st2 b.bid _ hst2 h1
  have h3 := connectTo_consistent blocks st2 st3 b.bid _ hst3 h2
  exact connectTo_consistent blocks st3 st' b.bid _ hst4 h3

theorem computeEdgesAux_consistent (blocks : List Block) (bt : Nat → Option Nat) :
    ∀ (l : List Block) (st st' : EState),
      computeEdgesAux blocks bt l st = some st' →
      (∀ a b : Nat, (a, b) ∈ st.out ↔ (b, a) ∈ st.inc) →
      ∀ a b : Nat, (a, b) ∈ st'.out ↔ (b, a) ∈ st'.inc := by
  intro l
  induction l with
  | nil =>
    intro st st' hc h
    simp only [computeEdgesAux, Option.some.injEq] at hc
    subst hc
    exact h
  | cons b rest ih =>
    intro st st' hc h
    simp only [computeEdgesAux, bind, Option.bind_eq_bind, Option.bind_eq_some] at hc
    rcases hc with ⟨st1, hst1, hrest⟩
    exact ih st1 st' hrest (processBlock_consistent blocks bt b rest.head? st st1 hst1 h)

/-- C9: after the edge construction of compute_order, the incoming and
outgoing edge sets are mutually consistent: b is in the outgoing set of a
exactly when a is in the incoming set of b. -/
theorem edges_incoming_outgoing_consistent (blocks : List Block)
    (bt : Nat → Option Nat) (st : EState)
    (hE : computeEdges blocks bt = some st) (a b : Nat) :
    b ∈ outOf st a ↔ a ∈ incOf st b := by
  rw [mem_outOf, mem_incOf]
  exact computeEdgesAux_consistent blocks bt blocks ⟨[], []⟩ st hE
    (by intro x y; simp) a b

/-- Witness for edges_incoming_outgoing_consistent on the try/handler
example, whose edge state is built successfully. -/
theorem edges_incoming_outgoing_consistent_witness :
    computeEdges (_split_bytecode exEdge) btNone =
      some ⟨[(0, 2)], [(2, 0)]⟩ ∧
    (2 ∈ outOf ⟨[(0, 2)], [(2, 0)]⟩ 0 ↔ 0 ∈ incOf ⟨[(0, 2)], [(2, 0)]⟩ 2) :=
  ⟨rfl, edges_incoming_outgoing_consistent (_split_bytecode exEdge) btNone
    ⟨[(0, 2)], [(2, 0)]⟩ rfl 0 2⟩

theorem connectTo_out_mono (blocks : List Block) (st st' : EState)
    (src : Nat) (tgt : Option Nat) (hc : connectTo blocks st src tgt = some st')
    {e : Nat × Nat} (he : e ∈ st.out) : e ∈ st'.out := by
  cases tgt with
  | none =>
    simp only [connectTo, Option.some.injEq] at hc
    subst hc
    exact he
  | some t =>
    simp only [connectTo, Option.map_eq_some'] at hc
    rcases hc with ⟨tb, _, hst⟩
    subst hst
    exact List.mem_cons_of_mem _ he

theorem processBlock_out_mono (blocks : List Block) (bt : Nat → Option Nat)
    (b : Block) (nextB : Option Block) (st st' : EState)
    (hp : processBlock blocks bt b nextB st = some st')
    {e : Nat × Nat} (he : e ∈ st.out) : e ∈ st'.out := by
  simp only [processBlock, bind, Option.bind_eq_bind, Option.bind_eq_some] at hp
  rcases hp with ⟨st2, hst2, st3, hst3, hst4⟩
  have h1 : e ∈ (match nextB with
      | some nb =>
        if (b.code.getLastD default).no_next then st else connect st b.bid nb.bid
      | none => st).out := by
    cases nextB with
    | none => exact he
    | some nb =>
      show e ∈ (if (b.code.getLastD default).no_next = true then st
        else connect st b.bid nb.bid).out
      by_cases hnn : (b.code.getLastD default).no_next = true
      · rw [if_pos hnn]
        exact he
      · rw [if_neg hnn]
        exact List.mem_cons_of_mem _ he
  exact connectTo_out_mono blocks st3 st' b.bid _ hst4
    (connectTo_out_mono blocks st2 st3 b.bid _ hst3
      (connectTo_out_mono blocks _ st2 b.bid _ hst2 h1))

theorem computeEdgesAux_out_mono (blocks : List Block) (bt : Nat → Option Nat) :
    ∀ (l : List Block) (st st' : EState),
      computeEdgesAux blocks bt l st = some st' →
      ∀ {e : Nat × Nat}, e ∈ st.out → e ∈ st'.out := by
  intro l
  induction l with
  | nil =>
    intro st st' hc e he
    simp only [computeEdgesAux, Option.some.injEq] at hc
    subst hc
    exact he
  | cons b rest ih =>
    intro st st' hc e he
    simp only [computeEdgesAux, bind, Option.bind_eq_bind, Option.bind_eq_some] at hc
    rcases hc with ⟨st1, hst1, hrest⟩
    exact ih st1 st' hrest (processBlock_out_mono blocks bt b rest.head? st st1 hst1 he)

theorem processBlock_first_target (blocks : List Block) (bt : Nat → Option Nat)
    (b : Block) (nextB : Option Block) (st st' : EState)
    (hp : processBlock blocks bt b nextB st = some st')
    (t : Nat) (ht : (b.code.headD default).target = some t)
    (tb : Block) (htb : findByEntry blocks t = some tb) :
    (b.bid, tb.bid) ∈ st'.out := by
  simp only [processBlock, bind, Option.bind_eq_bind, Option.bind_eq_some] at hp
  rcases hp with ⟨st2, hst2, st3, hst3, hst4⟩
  rw [ht] at hst2
  simp only [connectTo, htb, Option.map_some', Option.some.injEq] at hst2
  subst hst2
  refine connectTo_out_mono blocks st3 st' b.bid _ hst4
    (connectTo_out_mono blocks _ st3 b.bid _ hst3 ?_)
  exact List.mem_cons_self _ _

theorem computeEdgesAux_first_target (blocks : List Block) (bt : Nat → Option Nat) :
    ∀ (l : List Block) (st st' : EState),
      computeEdgesAux blocks bt l st = some st' →
      ∀ b ∈ l, ∀ (t : Nat), (b.code.headD default).target = some t →
        ∀ (tb : Block), findByEntry blocks t = some tb →
          (b.bid, tb.bid) ∈ st'.out := by
  intro l
  induction l with
  | nil => intro st st' _ b hb; simp at hb
  | cons b0 rest ih =>
    intro st st' hc b hb t ht tb htb
    simp only [computeEdgesAux, bind, Option.bind_eq_bind, Option.bind_eq_some] at hc
    rcases hc with ⟨st1, hst1, hrest⟩
    rcases List.mem_cons.mp hb with hb | hb
    · subst hb
      exact computeEdgesAux_out_mono blocks bt rest st1 st' hrest
        (processBlock_first_target blocks bt b rest.head? st st1 hst1 t ht tb htb)
    · exact ih st1 st' hrest b hb t ht tb htb

/-- C10: compute_order adds an outgoing edge from every block whose
first instruction carries an explicit jump target to the block beginning
at that target, independently of whether that first instruction is also
the block's last (the SETUP_EXCEPT-to-handler rule). -/
theorem first_op_target_edge (bc : List Instruction) (bt : Nat → Option Nat)
    (st : EState) (hE : computeEdges (_split_bytecode bc) bt = some st)
    (b : Block) (hb : b ∈ _split_bytecode bc)
    (t : Nat) (ht : (b.code.headD default).target = some t)
    (tb : Block) (htb : findByEntry (_split_bytecode bc) t = some tb) :
    tb.bid ∈ outOf st b.bid := by
  rw [mem_outOf]
  exact computeEdgesAux_first_target (_split_bytecode bc) bt
    (_split_bytecode bc) ⟨[], []⟩ st hE b hb t ht tb htb

/-- Witness for first_op_target_edge: in the try/handler example the
try-body block starts with a SETUP_FINALLY (its first but not last
instruction) targeting instruction 2, and the edge to the handler block
is present. -/
theorem first_op_target_edge_witness :
    computeEdges (_split_bytecode exEdge) btNone = some ⟨[(0, 2)], [(2, 0)]⟩ ∧
    exEdgeB0 ∈ _split_bytecode exEdge ∧
    (exEdgeB0.code.headD default).target = some 2 ∧
    exEdgeB0.code.headD default ≠ exEdgeB0.code.getLastD default ∧
    findByEntry (_split_bytecode exEdge) 2 = some exEdgeB2 ∧
    exEdgeB2.bid ∈ outOf ⟨[(0, 2)], [(2, 0)]⟩ exEdgeB0.bid :=
  ⟨rfl, by decide, by decide, by decide, rfl,
    first_op_target_edge exEdge btNone ⟨[(0, 2)], [(2, 0)]⟩ rfl exEdgeB0
      (by decide) 2 (by decide) exEdgeB2 rfl⟩

/-! ## Traversal lemmas -/

theorem dfsKids_nil (step : Nat → DfsSt → DfsSt) (par : Nat) (s : DfsSt) :
    dfsKids step par [] s = s := rfl

theorem dfsKids_cons (step : Nat → DfsSt → DfsSt) (par w : Nat)
    (ws : List Nat) (s : DfsSt) :
    dfsKids step par (w :: ws) s =
      dfsKids step par ws
        (if w ∈ s.vis ∧ w ∉ s.post then { s with back := (par, w) :: s.back }
         else step w s) := rfl

theorem dfsNode_zero (succ : Nat → List Nat) (u : Nat) (s : DfsSt) :
    dfsNode succ 0 u s = s := rfl

theorem dfsNode_succ_eq (succ : Nat → List Nat) (f u : Nat) (s : DfsSt) :
    dfsNode succ (f + 1) u s =
      if u ∈ s.vis then s
      else
        { dfsKids (fun w t => dfsNode succ f w t) u (succ u)
            { s with vis := u :: s.vis } with
          post := u :: (dfsKids (fun w t => dfsNode succ f w t) u (succ u)
            { s with vis := u :: s.vis }).post } := rfl

/-- Transport of a binary relation over the successor fold: the relation
must be reflexive, transitive, hold for the back-edge record step (under
the conditions it actually fires), and hold for the visit step. -/
theorem dfsKids_rel (step : Nat → DfsSt → DfsSt) (par : Nat)
    (Phi : DfsSt → DfsSt → Prop)
    (hrefl : ∀ s, Phi s s)
    (htrans : ∀ a b c, Phi a b → Phi b c → Phi a c)
    (hback : ∀ s w, w ∈ s.vis → w ∉ s.post →
      Phi s { s with back := (par, w) :: s.back })
    (hstep : ∀ w s, Phi s (step w s)) :
    ∀ (ws : List Nat) (s : DfsSt), Phi s (dfsKids step par ws s) := by
  intro ws
  induction ws with
  | nil => intro s; exact hrefl s
  | cons w ws ih =>
    intro s
    rw [dfsKids_cons]
    by_cases hc : w ∈ s.vis ∧ w ∉ s.post
    · rw [if_pos hc]
      exact htrans _ _ _ (hback s w hc.1 hc.2) (ih _)
    · rw [if_neg hc]
      exact htrans _ _ _ (hstep w s) (ih _)

theorem dfsLe_refl (s : DfsSt) : DfsLe s s :=
  ⟨fun _ h => h, List.suffix_refl _, fun _ h => h,
   fun _ h => Or.inl h, fun _ h => Or.inl h⟩

theorem dfsLe_trans (a b c : DfsSt) (hab : DfsLe a b) (hbc : DfsLe b c) :
    DfsLe a c := by
  obtain ⟨v1, p1, b1, n1, m1⟩ := hab
  obtain ⟨v2, p2, b2, n2, m2⟩ := hbc
  refine ⟨fun x hx => v2 x (v1 x hx), p1.trans p2, fun e he => b2 e (b1 e he),
    ?_, ?_⟩
  · intro x hx
    rcases n2 x hx with hx' | hx'
    · exact n1 x hx'
    · exact Or.inr (fun hv => hx' (v1 x hv))
  · intro x hx
    rcases m2 x hx with hx' | hx'
    · rcases m1 x hx' with hx'' | hx''
      · exact Or.inl hx''
      · exact Or.inr (p2.subset hx'')
    · exact Or.inr hx'

theorem dfsLe_back (s : DfsSt) (e : Nat × Nat) :
    DfsLe s { s with back := e :: s.back } :=
  ⟨fun _ h => h, List.suffix_refl _, fun _ h => List.mem_cons_of_mem _ h,
   fun _ h => Or.inl h, fun _ h => Or.inl h⟩

theorem dfsNode_le (succ : Nat → List Nat) :
    ∀ (f u : Nat) (s : DfsSt), DfsLe s (dfsNode succ f u s) := by
  intro f
  induction f with
  | zero => intro u s; exact dfsLe_refl s
  | succ f ih =>
    intro u s
    rw [dfsNode_succ_eq]
    by_cases hv : u ∈ s.vis
    · rw [if_pos hv]; exact dfsLe_refl s
    · rw [if_neg hv]
      set s1 : DfsSt := { s with vis := u :: s.vis } with hs1
      have hk : DfsLe s1 (dfsKids (fun w t => dfsNode succ f w t) u (succ u) s1) :=
        dfsKids_rel _ u DfsLe dfsLe_refl dfsLe_trans
          (fun s' e _ _ => dfsLe_back s' _) (fun w s' => ih w s') (succ u) s1
      set s2 := dfsKids (fun w t => dfsNode succ f w t) u (succ u) s1 with hs2
      obtain ⟨v1, p1, b1, n1, m1⟩ := hk
      refine ⟨?_, ?_, ?_, ?_, ?_⟩
      · intro x hx
        exact v1 x (List.mem_cons_of_mem _ hx)
      · exact List.IsSuffix.trans p1 (List.suffix_cons u s2.post)
      · exact b1
      · intro x hx
        rcases List.mem_cons.mp hx with hx | hx
        · subst hx
          exact Or.inr hv
        · rcases n1 x hx with hx' | hx'
          · exact Or.inl hx'
          · right
            intro hxs
            exact hx' (List.mem_cons_of_mem _ hxs)
      · intro x hx
        rcases m1 x hx with hx' | hx'
        · rcases List.mem_cons.mp hx' with hx'' | hx''
          · subst hx''
            exact Or.inr (List.mem_cons_self _ _)
          · exact Or.inl hx''
        · exact Or.inr (List.mem_cons_of_mem _ hx')

theorem dfsKids_le (succ : Nat → List Nat) (f par : Nat) (ws : List Nat)
    (s : DfsSt) :
    DfsLe s (dfsKids (fun w t => dfsNode succ f w t) par ws s) :=
  dfsKids_rel _ par DfsLe dfsLe_refl dfsLe_trans
    (fun s' e _ _ => dfsLe_back s' _) (fun w s' => dfsNode_le succ f w s') ws s

theorem dfsNode_visits (succ : Nat → List Nat) (f u : Nat) (s : DfsSt)
    (hf : 1 ≤ f) : u ∈ (dfsNode succ f u s).vis := by
  cases f with
  | zero => omega
  | succ f =>
    rw [dfsNode_succ_eq]
    by_cases hv : u ∈ s.vis
    · rw [if_pos hv]; exact hv
    · rw [if_neg hv]
      have hk := dfsKids_le succ f u (succ u) { s with vis := u :: s.vis }
      exact hk.1 u (List.mem_cons_self _ _)

theorem dfsNode_nodup (succ : Nat → List Nat) :
    ∀ (f u : Nat) (s : DfsSt), s.post.Nodup → (∀ x ∈ s.post, x ∈ s.vis) →
      (dfsNode succ f u s).post.Nodup ∧
      ∀ x ∈ (dfsNode succ f u s).post, x ∈ (dfsNode succ f u s).vis := by
  intro f
  induction f with
  | zero => intro u s h1 h2; exact ⟨h1, h2⟩
  | succ f ih =>
    intro u s h1 h2
    rw [dfsNode_succ_eq]
    by_cases hv : u ∈ s.vis
    · rw [if_pos hv]; exact ⟨h1, h2⟩
    · rw [if_neg hv]
      set s1 : DfsSt := { s with vis := u :: s.vis } with hs1
      have hk := dfsKids_rel (fun w t => dfsNode succ f w t) u
        (fun a b => (a.post.Nodup → (∀ x ∈ a.post, x ∈ a.vis) →
          b.post.Nodup ∧ ∀ x ∈ b.post, x ∈ b.vis))
        (fun s' ha hb => ⟨ha, hb⟩)
        (fun a b c hab hbc ha hb =>
          hbc ((hab ha hb).1) ((hab ha hb).2))
        (fun s' w _ _ ha hb => ⟨ha, hb⟩)
        (fun w s' ha hb => ih w s' ha hb)
        (succ u) s1
      set s2 := dfsKids (fun w t => dfsNode succ f w t) u (succ u) s1 with hs2
      have hle : DfsLe s1 s2 := dfsKids_le succ f u (succ u) s1
      have hs1nd : s1.post.Nodup := h1
      have hs1pv : ∀ x ∈ s1.post, x ∈ s1.vis := fun x hx =>
        List.mem_cons_of_mem _ (h2 x hx)
      obtain ⟨hnd2, hpv2⟩ := hk hs1nd hs1pv
      have hu2 : u ∉ s2.post := by
        intro hu
        rcases hle.2.2.2.1 u hu with hu' | hu'
        · exact hv (h2 u hu')
        · exact hu' (List.mem_cons_self _ _)
      constructor
      · exact List.nodup_cons.mpr ⟨hu2, hnd2⟩
      · intro x hx
        rcases List.mem_cons.mp hx with hx | hx
        · subst hx
          exact hle.1 x (List.mem_cons_self _ _)
        · exact hpv2 x hx

theorem dfsNode_back_sound (succ : Nat → List Nat) :
    ∀ (f u : Nat) (s : DfsSt),
      ∀ e ∈ (dfsNode succ f u s).back,
        e ∈ s.back ∨ e.2 ∈ (dfsNode succ f u s).vis := by
  intro f
  induction f with
  | zero => intro u s e he; exact Or.inl he
  | succ f ih =>
    intro u s e he
    rw [dfsNode_succ_eq] at he ⊢
    by_cases hv : u ∈ s.vis
    · rw [if_pos hv] at he ⊢; exact Or.inl he
    · rw [if_neg hv] at he ⊢
      set s1 : DfsSt := { s with vis := u :: s.vis } with hs1
      have hk := dfsKids_rel (fun w t => dfsNode succ f w t) u
        (fun a b => DfsLe a b ∧ ∀ e ∈ b.back, e ∈ a.back ∨ e.2 ∈ b.vis)
        (fun s' => ⟨dfsLe_refl s', fun e he => Or.inl he⟩)
        (fun a b c hab hbc => ⟨dfsLe_trans a b c hab.1 hbc.1, by
          intro e he
          rcases hbc.2 e he with he' | he'
          · rcases hab.2 e he' with he'' | he''
            · exact Or.inl he''
            · exact Or.inr (hbc.1.1 _ he'')
          · exact Or.inr he'⟩)
        (fun s' w hw _ => ⟨dfsLe_back s' _, by
          intro e he
          rcases List.mem_cons.mp he with he' | he'
          · subst he'
            exact Or.inr hw
          · exact Or.inl he'⟩)
        (fun w s' => ⟨dfsNode_le succ f w s', ih w s'⟩)
        (succ u) s1
      exact hk.2 e he

theorem dfsKids_sound (succ : Nat → List Nat) (f par : Nat)
    (ih : ∀ (u : Nat) (s : DfsSt), ∀ x ∈ (dfsNode succ f u s).vis,
      x ∈ s.vis ∨ ReachS succ u x) :
    ∀ (ws : List Nat) (s : DfsSt),
      ∀ x ∈ (dfsKids (fun w t => dfsNode succ f w t) par ws s).vis,
        x ∈ s.vis ∨ ∃ w ∈ ws, ReachS succ w x := by
  intro ws
  induction ws with
  | nil => intro s x hx; exact Or.inl hx
  | cons w ws ihw =>
    intro s x hx
    rw [dfsKids_cons] at hx
    by_cases hc : w ∈ s.vis ∧ w ∉ s.post
    · rw [if_pos hc] at hx
      rcases ihw _ x hx with hx' | ⟨w', hw', hr⟩
      · exact Or.inl hx'
      · exact Or.inr ⟨w', List.mem_cons_of_mem _ hw', hr⟩
    · rw [if_neg hc] at hx
      rcases ihw _ x hx with hx' | ⟨w', hw', hr⟩
      · rcases ih w s x hx' with hx'' | hr
        · exact Or.inl hx''
        · exact Or.inr ⟨w, List.mem_cons_self _ _, hr⟩
      · exact Or.inr ⟨w', List.mem_cons_of_mem _ hw', hr⟩

theorem dfsNode_sound (succ : Nat → List Nat) :
    ∀ (f u : Nat) (s : DfsSt), ∀ x ∈ (dfsNode succ f u s).vis,
      x ∈ s.vis ∨ ReachS succ u x := by
  intro f
  induction f with
  | zero => intro u s x hx; exact Or.inl hx
  | succ f ih =>
    intro u s x hx
    rw [dfsNode_succ_eq] at hx
    by_cases hv : u ∈ s.vis
    · rw [if_pos hv] at hx; exact Or.inl hx
    · rw [if_neg hv] at hx
      have hx' := dfsKids_sound succ f u ih (succ u)
        { s with vis := u :: s.vis } x hx
      rcases hx' with hx' | ⟨w, hw, hr⟩
      · rcases List.mem_cons.mp hx' with hx'' | hx''
        · subst hx''
          exact Or.inr Relation.ReflTransGen.refl
        · exact Or.inl hx''
      · exact Or.inr (Relation.ReflTransGen.head hw hr)

theorem unvisCount_mono (univ : List Nat) (vis vis' : List Nat)
    (h : ∀ x, x ∈ vis → x ∈ vis') :
    unvisCount univ vis' ≤ unvisCount univ vis := by
  apply List.Sublist.length_le
  apply List.monotone_filter_right
  intro a ha
  simp only [decide_eq_true_eq] at ha ⊢
  exact fun hc => ha (h a hc)

theorem unvisCount_cons_lt (univ : List Nat) (vis : List Nat) (u : Nat)
    (hu : u ∈ univ) (hv : u ∉ vis) :
    unvisCount univ (u :: vis) < unvisCount univ vis := by
  have hsub : List.Sublist (univ.filter (fun x => decide (x ∉ u :: vis)))
      (univ.filter (fun x => decide (x ∉ vis))) := by
    apply List.monotone_filter_right
    intro a ha
    simp only [decide_eq_true_eq, List.mem_cons, not_or] at ha ⊢
    exact ha.2
  have hle := hsub.length_le
  have hne : univ.filter (fun x => decide (x ∉ u :: vis)) ≠
      univ.filter (fun x => decide (x ∉ vis)) := by
    intro heq
    have humem : u ∈ univ.filter (fun x => decide (x ∉ vis)) := by
      rw [List.mem_filter]
      exact ⟨hu, by simpa using hv⟩
    rw [← heq, List.mem_filter] at humem
    simp at humem
  have : (univ.filter (fun x => decide (x ∉ u :: vis))).length ≠
      (univ.filter (fun x => decide (x ∉ vis))).length := by
    intro hlen
    exact hne (hsub.eq_of_length hlen)
  unfold unvisCount
  omega

theorem unvisCount_nil_vis (univ : List Nat) :
    unvisCount univ [] = univ.length := by
  unfold unvisCount
  simp

theorem before_cons (l : List Nat) (a b x : Nat) (h : Before l a b) :
    Before (x :: l) a b := by
  obtain ⟨i, j, hij, hi, hj⟩ := h
  exact ⟨i + 1, j + 1, by omega, by simpa using hi, by simpa using hj⟩

theorem before_head (l : List Nat) (a b : Nat) (hb : b ∈ l) :
    Before (a :: l) a b := by
  obtain ⟨j, hj⟩ := List.mem_iff_get?.mp hb
  exact ⟨0, j + 1, by omega, rfl, by simpa using hj⟩

theorem before_of_suffix (l l' : List Nat) (a b : Nat) (h : Before l a b)
    (hs : l.IsSuffix l') : Before l' a b := by
  obtain ⟨pre, hpre⟩ := hs
  obtain ⟨i, j, hij, hi, hj⟩ := h
  subst hpre
  refine ⟨pre.length + i, pre.length + j, by omega, ?_, ?_⟩
  · rw [List.get?_append_right (by omega)]
    simpa using hi
  · rw [List.get?_append_right (by omega)]
    simpa using hj

theorem mem_insertAsc (x y : Nat) (l : List Nat) :
    x ∈ insertAsc y l ↔ x = y ∨ x ∈ l := by
  induction l with
  | nil => simp [insertAsc]
  | cons z zs ih =>
    simp only [insertAsc]
    by_cases h : y ≤ z
    · rw [if_pos h]
      simp
    · rw [if_neg h]
      simp only [List.mem_cons, ih]
      tauto

theorem mem_sortAsc (x : Nat) (l : List Nat) :
    x ∈ sortAsc l ↔ x ∈ l := by
  unfold sortAsc
  induction l with
  | nil => simp
  | cons y ys ih =>
    simp only [List.foldr_cons, mem_insertAsc, List.mem_cons, ih]

theorem mem_succOf (st : EState) (u v : Nat) :
    v ∈ succOf st u ↔ (u, v) ∈ st.out := by
  rw [succOf, mem_sortAsc, List.mem_dedup, mem_outOf]

theorem reachS_iff_reachE (st : EState) (a b : Nat) :
    ReachS (succOf st) a b ↔ ReachE st a b := by
  constructor
  · intro h
    refine Relation.ReflTransGen.mono ?_ h
    intro x y hxy
    exact (mem_succOf st x y).mp hxy
  · intro h
    refine Relation.ReflTransGen.mono ?_ h
    intro x y hxy
    exact (mem_succOf st x y).mpr hxy

theorem dfsKids_ord (succ : Nat → List Nat) (univ : List Nat) (f par : Nat)
    (hN : ∀ (u : Nat) (s : DfsSt), f ≥ 1 + unvisCount univ s.vis →
      (u ∈ univ ∨ u ∈ s.vis) → OrdInv succ s →
      OrdInv succ (dfsNode succ f u s)) :
    ∀ (ws : List Nat) (s : DfsSt), f ≥ 1 + unvisCount univ s.vis →
      (∀ w ∈ ws, w ∈ univ) → OrdInv succ s →
      OrdInv succ (dfsKids (fun w t => dfsNode succ f w t) par ws s) ∧
      ∀ w ∈ ws,
        (par, w) ∈ (dfsKids (fun w t => dfsNode succ f w t) par ws s).back ∨
        w ∈ (dfsKids (fun w t => dfsNode succ f w t) par ws s).post := by
  intro ws
  induction ws with
  | nil =>
    intro s _ _ hOrd
    exact ⟨hOrd, by simp⟩
  | cons w ws ih =>
    intro s hf hws hOrd
    rw [dfsKids_cons]
    by_cases hc : w ∈ s.vis ∧ w ∉ s.post
    · rw [if_pos hc]
      set s1 : DfsSt := { s with back := (par, w) :: s.back } with hs1
      have hOrd1 : OrdInv succ s1 := by
        intro a v ha hv
        rcases hOrd a v ha hv with hb | hp
        · exact Or.inl (List.mem_cons_of_mem _ hb)
        · exact Or.inr hp
      have hf1 : f ≥ 1 + unvisCount univ s1.vis := hf
      obtain ⟨hOrd2, hrest⟩ := ih s1 hf1 (fun x hx => hws x (List.mem_cons_of_mem _ hx)) hOrd1
      refine ⟨hOrd2, ?_⟩
      intro x hx
      rcases List.mem_cons.mp hx with hx | hx
      · subst hx
        left
        exact (dfsKids_le succ f par ws s1).2.2.1 _ (List.mem_cons_self _ _)
      · exact hrest x hx
    · rw [if_neg hc]
      set s1 := dfsNode succ f w s with hs1
      have hle : DfsLe s s1 := dfsNode_le succ f w s
      have hwuniv : w ∈ univ := hws w (List.mem_cons_self _ _)
      have hOrd1 : OrdInv succ s1 := hN w s hf (Or.inl hwuniv) hOrd
      have hf1 : f ≥ 1 + unvisCount univ s1.vis := by
        have := unvisCount_mono univ s.vis s1.vis hle.1
        omega
      obtain ⟨hOrd2, hrest⟩ := ih s1 hf1 (fun x hx => hws x (List.mem_cons_of_mem _ hx)) hOrd1
      refine ⟨hOrd2, ?_⟩
      intro x hx
      rcases List.mem_cons.mp hx with hx | hx
      · subst hx
        right
        have hxp : x ∈ s1.post := by
          by_cases hxv : x ∈ s.vis
          · have hxpost : x ∈ s.post := by
              by_contra hxp
              exact hc ⟨hxv, hxp⟩
            exact hle.2.1.subset hxpost
          · have hx1 : x ∈ s1.vis :=
              dfsNode_visits succ f x s (by omega)
            rcases hle.2.2.2.2 x hx1 with hx' | hx'
            · exact absurd hx' hxv
            · exact hx'
        exact (dfsKids_le succ f par ws s1).2.1.subset hxp
      · exact hrest x hx

theorem dfsNode_ord (succ : Nat → List Nat) (univ : List Nat)
    (hcl : SuccClosed succ univ) :
    ∀ (f u : Nat) (s : DfsSt), f ≥ 1 + unvisCount univ s.vis →
      (u ∈ univ ∨ u ∈ s.vis) → OrdInv succ s →
      OrdInv succ (dfsNode succ f u s) := by
  intro f
  induction f with
  | zero => intro u s hf; omega
  | succ f ih =>
    intro u s hf hu hOrd
    rw [dfsNode_succ_eq]
    by_cases hv : u ∈ s.vis
    · rw [if_pos hv]
      exact hOrd
    · rw [if_neg hv]
      have huu : u ∈ univ := by
        rcases hu with hu | hu
        · exact hu
        · exact absurd hu hv
      set s1 : DfsSt := { s with vis := u :: s.vis } with hs1
      have hf1 : f ≥ 1 + unvisCount univ s1.vis := by
        have := unvisCount_cons_lt univ s.vis u huu hv
        have h2 : unvisCount univ s1.vis = unvisCount univ (u :: s.vis) := rfl
        omega
      have hOrd1 : OrdInv succ s1 := hOrd
      obtain ⟨hOrd2, hkids⟩ := dfsKids_ord succ univ f u ih (succ u) s1 hf1
        (fun w hw => hcl u w hw) hOrd1
      set s2 := dfsKids (fun w t => dfsNode succ f w t) u (succ u) s1 with hs2
      intro a v ha hv'
      rcases List.mem_cons.mp ha with ha' | ha'
      · subst ha'
        rcases hkids v hv' with hb | hp
        · exact Or.inl hb
        · exact Or.inr ⟨List.mem_cons_of_mem _ hp, before_head s2.post a v hp⟩
      · rcases hOrd2 a v ha' hv' with hb | ⟨hvp, hbef⟩
        · exact Or.inl hb
        · exact Or.inr ⟨List.mem_cons_of_mem _ hvp, before_cons s2.post a v _ hbef⟩

theorem univOf_closed (st : EState) (entry : Nat) :
    SuccClosed (succOf st) (univOf st entry) := by
  intro x w hw
  rw [mem_succOf] at hw
  unfold univOf
  right
  exact List.mem_map.mpr ⟨(x, w), hw, rfl⟩

theorem orderRun_spec (st : EState) (blocks : List Block) :
    (orderRun st blocks).post.Nodup ∧
    (∀ x, x ∈ (orderRun st blocks).post ↔
      ReachS (succOf st) (entryOf blocks) x) ∧
    OrdInv (succOf st) (orderRun st blocks) := by
  set entry := entryOf blocks with hentry
  set succ := succOf st with hsucc
  set univ := univOf st entry with huniv
  set N := univ.length + 1 with hN
  set S0 : DfsSt := ⟨[], [], []⟩ with hS0
  have hfuel : N ≥ 1 + unvisCount univ S0.vis := by
    have := unvisCount_nil_vis univ
    simp only [hS0] at this ⊢
    omega
  have hle : DfsLe S0 (orderRun st blocks) := dfsNode_le succ N entry S0
  have hgray : ∀ x ∈ (orderRun st blocks).vis, x ∈ (orderRun st blocks).post := by
    intro x hx
    rcases hle.2.2.2.2 x hx with hx' | hx'
    · simp [hS0] at hx'
    · exact hx'
  have hnodup := dfsNode_nodup succ N entry S0 (by simp [hS0]) (by simp [hS0])
  have hOrd : OrdInv succ (orderRun st blocks) := by
    apply dfsNode_ord succ univ (univOf_closed st entry) N entry S0 hfuel
    · left
      exact List.mem_cons_self _ _
    · intro a v ha
      simp [hS0] at ha
  refine ⟨hnodup.1, ?_, hOrd⟩
  intro x
  constructor
  · intro hx
    have hxv := hnodup.2 x hx
    rcases dfsNode_sound succ N entry S0 x hxv with hx' | hx'
    · simp [hS0] at hx'
    · exact hx'
  · intro hr
    induction hr with
    | refl =>
      apply hgray
      exact dfsNode_visits succ N entry S0 (by omega)
    | tail hstep hedge ihr =>
      rename_i b c
      have hb : b ∈ (orderRun st blocks).post := ihr
      rcases hOrd b c hb hedge with hback | ⟨hcp, _⟩
      · rcases dfsNode_back_sound succ N entry S0 (b, c) hback with h' | h'
        · simp [hS0] at h'
        · exact hgray c h'
      · exact hcp

theorem split_ne_nil (bc : List Instruction) (h : NextOk bc) (hne : bc ≠ []) :
    _split_bytecode bc ≠ [] := by
  intro hsp
  cases hl : bc.getLast? with
  | none => exact hne (List.getLast?_eq_none_iff.mp hl)
  | some lastOp =>
    have hj := splitAux_join (targetsOf bc) bc [] lastOp hl
      (last_closes bc h lastOp hl)
    rw [show splitAux (targetsOf bc) bc [] = _split_bytecode bc from rfl,
      hsp] at hj
    simp at hj
    exact hne hj

theorem bid_of_slice (bc : List Instruction) (hidx : IndexOk bc) (m : Nat)
    (code rest2 : List Instruction) (hcode : code ≠ [])
    (hm : code ++ rest2 = bc.drop m) : (Block.mk code).bid = m := by
  cases code with
  | nil => exact absurd rfl hcode
  | cons c0 cs =>
    have h0 : bc.get? m = some c0 := by
      have h1 : (bc.drop m).get? 0 = some c0 := by
        rw [← hm]
        rfl
      rw [List.get?_drop] at h1
      simpa using h1
    have := indexOk_get? bc hidx h0
    simpa [Block.bid, List.headD] using this

theorem splitAux_bids (targets : List Nat) (bc : List Instruction)
    (hidx : IndexOk bc) :
    ∀ (l acc : List Instruction) (m : Nat), acc ++ l = bc.drop m →
      ((splitAux targets l acc).map Block.bid).Pairwise (· < ·) ∧
      ∀ b ∈ splitAux targets l acc, m ≤ b.bid := by
  intro l
  induction l with
  | nil =>
    intro acc m _
    constructor
    · simp [splitAux]
    · intro b hb
      simp [splitAux] at hb
  | cons op rest ih =>
    intro acc m hm
    rw [splitAux_cons]
    by_cases hco : closesBlock targets op = true
    · rw [if_pos hco]
      have hrest : ([] : List Instruction) ++ rest = bc.drop (m + (acc.length + 1)) := by
        have h1 : rest = (acc ++ op :: rest).drop (acc.length + 1) := by
          have h : acc ++ op :: rest = (acc ++ [op]) ++ rest := by simp
          have h2 : acc.length + 1 = (acc ++ [op]).length := by simp
          rw [h, h2, List.drop_left]
        rw [List.nil_append, h1, hm, List.drop_drop]
      obtain ⟨hpw, hlb⟩ := ih [] (m + (acc.length + 1)) hrest
      have hbid : (Block.mk (acc ++ [op])).bid = m := by
        apply bid_of_slice bc hidx m (acc ++ [op]) rest (by simp)
        simpa using hm
      constructor
      · rw [List.map_cons, List.pairwise_cons]
        refine ⟨?_, hpw⟩
        intro x hx
        rw [List.mem_map] at hx
        obtain ⟨b', hb', hbx⟩ := hx
        have := hlb b' hb'
        rw [hbid, ← hbx]
        omega
      · intro b hb
        rcases List.mem_cons.mp hb with hb | hb
        · subst hb
          omega
        · have := hlb b hb
          omega
    · rw [if_neg hco]
      exact ih (acc ++ [op]) m (by simpa using hm)

theorem split_bids_nodup (bc : List Instruction) (hidx : IndexOk bc) :
    ((_split_bytecode bc).map Block.bid).Nodup := by
  have := (splitAux_bids (targetsOf bc) bc hidx bc [] 0 (by simp)).1
  exact this.imp (fun h => Nat.ne_of_lt h)

theorem findByEntry_eq_some (blocks : List Block) (t : Nat) (tb : Block)
    (h : findByEntry blocks t = some tb) : tb ∈ blocks ∧ tb.bid = t := by
  unfold findByEntry at h
  refine ⟨List.mem_of_find?_eq_some h, ?_⟩
  have := List.find?_some h
  simpa using this

theorem findByEntry_self (blocks : List Block)
    (hnd : (blocks.map Block.bid).Nodup) (b : Block) (hb : b ∈ blocks) :
    findByEntry blocks b.bid = some b := by
  induction blocks with
  | nil => simp at hb
  | cons b0 rest ih =>
    rw [List.map_cons, List.nodup_cons] at hnd
    rcases List.mem_cons.mp hb with hb' | hb'
    · subst hb'
      unfold findByEntry
      rw [List.find?_cons_of_pos _ (by simp)]
    · have hne : (b0.bid == b.bid) = false := by
        rw [beq_eq_false_iff_ne]
        intro he
        exact hnd.1 (he ▸ List.mem_map.mpr ⟨b, hb', rfl⟩)
      unfold findByEntry
      rw [List.find?_cons_of_neg _ (by simp [hne])]
      exact ih hnd.2 hb'

theorem filterMap_findByEntry (blocks : List Block)
    (hnd : (blocks.map Block.bid).Nodup) :
    ∀ l : List Nat, (∀ x ∈ l, ∃ b ∈ blocks, b.bid = x) →
      (l.filterMap (findByEntry blocks)).map Block.bid = l ∧
      ∀ b ∈ l.filterMap (findByEntry blocks), b ∈ blocks := by
  intro l
  induction l with
  | nil => intro _; simp
  | cons x xs ih =>
    intro hall
    obtain ⟨b, hb, hbx⟩ := hall x (List.mem_cons_self _ _)
    have hfind : findByEntry blocks x = some b := by
      rw [← hbx]
      exact findByEntry_self blocks hnd b hb
    obtain ⟨ihm, ihs⟩ := ih (fun y hy => hall y (List.mem_cons_of_mem _ hy))
    rw [List.filterMap_cons, hfind]
    constructor
    · rw [List.map_cons, ihm, hbx]
    · intro b' hb'
      rcases List.mem_cons.mp hb' with hb'' | hb''
      · subst hb''
        exact hb
      · exact ihs b' hb''

theorem connectTo_targets (blocks : List Block) (st st' : EState) (src : Nat)
    (tgt : Option Nat) (hc : connectTo blocks st src tgt = some st')
    (h : ∀ e ∈ st.out, ∃ b ∈ blocks, b.bid = e.2) :
    ∀ e ∈ st'.out, ∃ b ∈ blocks, b.bid = e.2 := by
  cases tgt with
  | none =>
    simp only [connectTo, Option.some.injEq] at hc
    subst hc
    exact h
  | some t =>
    simp only [connectTo, Option.map_eq_some'] at hc
    rcases hc with ⟨tb, htb, hst⟩
    subst hst
    intro e he
    rcases List.mem_cons.mp he with he' | he'
    · subst he'
      exact ⟨tb, (findByEntry_eq_some blocks t tb htb).1, rfl⟩
    · exact h e he'

theorem processBlock_targets (blocks : List Block) (bt : Nat → Option Nat)
    (b : Block) (nextB : Option Block) (st st' : EState)
    (hp : processBlock blocks bt b nextB st = some st')
    (hnb : ∀ nb, nextB = some nb → nb ∈ blocks)
    (h : ∀ e ∈ st.out, ∃ b' ∈ blocks, b'.bid = e.2) :
    ∀ e ∈ st'.out, ∃ b' ∈ blocks, b'.bid = e.2 := by
  simp only [processBlock, bind, Option.bind_eq_bind, Option.bind_eq_some] at hp
  rcases hp with ⟨st2, hst2, st3, hst3, hst4⟩
  have h1 : ∀ e ∈ (match nextB with
      | some nb =>
        if (b.code.getLastD default).no_next then st else connect st b.bid nb.bid
      | none => st).out, ∃ b' ∈ blocks, b'.bid = e.2 := by
    cases nextB with
    | none => exact h
    | some nb =>
      show ∀ e ∈ (if (b.code.getLastD default).no_next = true then st
        else connect st b.bid nb.bid).out, ∃ b' ∈ blocks, b'.bid = e.2
      by_cases hnn : (b.code.getLastD default).no_next = true
      · rw [if_pos hnn]
        exact h
      · rw [if_neg hnn]
        intro e he
        rcases List.mem_cons.mp he with he' | he'
        · subst he'
          exact ⟨nb, hnb nb rfl, rfl⟩
        · exact h e he'
  exact connectTo_targets blocks st3 st' b.bid _ hst4
    (connectTo_targets blocks st2 st3 b.bid _ hst3
      (connectTo_targets blocks _ st2 b.bid _ hst2 h1))

theorem computeEdgesAux_targets (blocks : List Block) (bt : Nat → Option Nat) :
    ∀ (l : List Block) (st st' : EState),
      computeEdgesAux blocks bt l st = some st' →
      (∀ x ∈ l, x ∈ blocks) →
      (∀ e ∈ st.out, ∃ b ∈ blocks, b.bid = e.2) →
      ∀ e ∈ st'.out, ∃ b ∈ blocks, b.bid = e.2 := by
  intro l
  induction l with
  | nil =>
    intro st st' hc _ h
    simp only [computeEdgesAux, Option.some.injEq] at hc
    subst hc
    exact h
  | cons b rest ih =>
    intro st st' hc hl h
    simp only [computeEdgesAux, bind, Option.bind_eq_bind, Option.bind_eq_some] at hc
    rcases hc with ⟨st1, hst1, hrest⟩
    refine ih st1 st' hrest (fun x hx => hl x (List.mem_cons_of_mem _ hx)) ?_
    refine processBlock_targets blocks bt b rest.head? st st1 hst1 ?_ h
    intro nb hnb
    cases rest with
    | nil => simp at hnb
    | cons r rs =>
      simp only [List.head?_cons, Option.some.injEq] at hnb
      rw [← hnb]
      exact hl r (List.mem_cons_of_mem _ (List.mem_cons_self _ _))

theorem computeEdges_targets (blocks : List Block) (bt : Nat → Option Nat)
    (st : EState) (hE : computeEdges blocks bt = some st) :
    ∀ e ∈ st.out, ∃ b ∈ blocks, b.bid = e.2 :=
  computeEdgesAux_targets blocks bt blocks ⟨[], []⟩ st hE (fun _ hx => hx)
    (by intro e he; simp at he)

theorem orderRun_post_bids (bc : List Instruction) (bt : Nat → Option Nat)
    (st : EState) (hwf : Wf bc) (hne : bc ≠ [])
    (hE : computeEdges (_split_bytecode bc) bt = some st) :
    ∀ x ∈ (orderRun st (_split_bytecode bc)).post,
      ∃ b ∈ _split_bytecode bc, b.bid = x := by
  intro x hx
  have hreach := ((orderRun_spec st (_split_bytecode bc)).2.1 x).mp hx
  rcases Relation.ReflTransGen.cases_tail hreach with hx' | ⟨c, _, hcx⟩
  · subst hx'
    have hbne := split_ne_nil bc hwf.2 hne
    cases hb : _split_bytecode bc with
    | nil => exact absurd hb hbne
    | cons b0 rest =>
      exact ⟨b0, List.mem_cons_self _ _, rfl⟩
  · have hedge : (c, x) ∈ st.out := (mem_succOf st c x).mp hcx
    exact computeEdges_targets (_split_bytecode bc) bt st hE (c, x) hedge

/-- C3: for a non-empty well-formed instruction sequence whose edge state
is built successfully, compute_order returns an order that contains each
split block exactly when it is reachable along built edges from the entry
block, contains only split blocks, contains no block twice, and places u
before v for every built edge from u to v that the traversal did not
record as a back edge. -/
theorem compute_order_spec (bc : List Instruction) (bt : Nat → Option Nat)
    (hwf : Wf bc) (hne : bc ≠ []) (st : EState)
    (hE : computeEdges (_split_bytecode bc) bt = some st) :
    ∃ order : List Block, compute_order bc bt = some order ∧
      (∀ b ∈ _split_bytecode bc,
        (b ∈ order ↔ ReachE st (entryOf (_split_bytecode bc)) b.bid)) ∧
      (∀ b ∈ order, b ∈ _split_bytecode bc) ∧
      (order.map Block.bid).Nodup ∧
      (∀ u v : Nat, EdgeOf st u v → u ∈ order.map Block.bid →
        (u, v) ∉ backEdges st (_split_bytecode bc) →
        Before (order.map Block.bid) u v) := by
  have hnd : ((_split_bytecode bc).map Block.bid).Nodup :=
    split_bids_nodup bc hwf.1
  have hpost := orderRun_post_bids bc bt st hwf hne hE
  obtain ⟨hmap, hsub⟩ := filterMap_findByEntry (_split_bytecode bc) hnd
    (orderRun st (_split_bytecode bc)).post hpost
  have hordermap : (order_nodes st (_split_bytecode bc)).map Block.bid =
      (orderRun st (_split_bytecode bc)).post := hmap
  have hspec := orderRun_spec st (_split_bytecode bc)
  refine ⟨order_nodes st (_split_bytecode bc), ?_, ?_, hsub, ?_, ?_⟩
  · show (computeEdges (_split_bytecode bc) bt).map
      (fun st' => order_nodes st' (_split_bytecode bc)) =
        some (order_nodes st (_split_bytecode bc))
    rw [hE, Option.map_some']
  · intro b hb
    constructor
    · intro hbo
      have hbm : b.bid ∈ (order_nodes st (_split_bytecode bc)).map Block.bid :=
        List.mem_map.mpr ⟨b, hbo, rfl⟩
      rw [hordermap] at hbm
      exact (reachS_iff_reachE st _ _).mp ((hspec.2.1 b.bid).mp hbm)
    · intro hr
      have hbm : b.bid ∈ (orderRun st (_split_bytecode bc)).post :=
        (hspec.2.1 b.bid).mpr ((reachS_iff_reachE st _ _).mpr hr)
      rw [← hordermap] at hbm
      obtain ⟨b', hb', hbid⟩ := List.mem_map.mp hbm
      have hb'blocks := hsub b' hb'
      have : b' = b := List.inj_on_of_nodup_map hnd hb'blocks hb hbid
      rw [← this]
      exact hb'
  · rw [hordermap]
    exact hspec.1
  · intro u v he hu hnback
    rw [hordermap] at hu ⊢
    have hv : v ∈ succOf st u := (mem_succOf st u v).mpr he
    rcases hspec.2.2 u v hu hv with hb | ⟨_, hbef⟩
    · exact absurd hb hnback
    · exact hbef

/-- Witness for compute_order_spec on the try/handler example. -/
theorem compute_order_spec_witness :
    Wf exEdge ∧ exEdge ≠ [] ∧
    computeEdges (_split_bytecode exEdge) btNone = some ⟨[(0, 2)], [(2, 0)]⟩ ∧
    (∃ order : List Block, compute_order exEdge btNone = some order ∧
      (∀ b ∈ _split_bytecode exEdge,
        (b ∈ order ↔ ReachE ⟨[(0, 2)], [(2, 0)]⟩
          (entryOf (_split_bytecode exEdge)) b.bid)) ∧
      (∀ b ∈ order, b ∈ _split_bytecode exEdge) ∧
      (order.map Block.bid).Nodup ∧
      (∀ u v : Nat, EdgeOf ⟨[(0, 2)], [(2, 0)]⟩ u v →
        u ∈ order.map Block.bid →
        (u, v) ∉ backEdges ⟨[(0, 2)], [(2, 0)]⟩ (_split_bytecode exEdge) →
        Before (order.map Block.bid) u v)) :=
  ⟨by decide, by decide, rfl,
    compute_order_spec exEdge btNone (by decide) (by decide)
      ⟨[(0, 2)], [(2, 0)]⟩ rfl⟩
